import Mathlib

/-!
Verification development for the vman catalog tool (src/vman.py).

The SQLite-backed store is embedded shallowly: each table is a list of
rows, SQL statements become list operations, and every repository
function of the source is translated into a Lean function of the same
shape.  Text columns are `List Char`; the Python entry points always
store strings (possibly empty), never SQL NULL, so row fields are plain
lists and the only NULL that matters - the one produced by the
LEFT JOIN in `search` and `_build_catalog` - is modelled with `Option`.
-/

namespace Vman

/-! ### String helpers

`Char.toLower` only maps the ASCII range, which matches the default
case folding of SQLite `LIKE`; Python `str.lower` agrees with it on
ASCII text. -/

def lowerStr (l : List Char) : List Char := l.map Char.toLower

def isWS (c : Char) : Bool := c.isWhitespace

/-- Python `str.strip()`: drop whitespace from both ends. -/
def stripList (l : List Char) : List Char :=
  ((l.dropWhile isWS).reverse.dropWhile isWS).reverse

/-- `isStartOf pat l` holds when `pat` is an initial segment of `l`. -/
def isStartOf : List Char → List Char → Bool
  | [], _ => true
  | _ :: _, [] => false
  | p :: ps, c :: cs => p == c && isStartOf ps cs

/-- Python `pat in hay` on strings: substring containment. -/
def hasSub : List Char → List Char → Bool
  | [], pat => pat.isEmpty
  | h :: t, pat => isStartOf pat (h :: t) || hasSub t pat

/-- SQLite LIKE with a pattern enclosed in percent signs: case-insensitive (ASCII) containment. -/
def likeSub (hay pat : List Char) : Bool :=
  hasSub (lowerStr hay) (lowerStr pat)

/-- Python `str.split()` with no argument: split on whitespace runs,
discarding empty pieces.  `acc` holds the current word reversed. -/
def splitWSAux : List Char → List Char → List (List Char)
  | [], acc => if acc.isEmpty then [] else [acc.reverse]
  | c :: cs, acc =>
    if isWS c then
      if acc.isEmpty then splitWSAux cs [] else acc.reverse :: splitWSAux cs []
    else splitWSAux cs (c :: acc)

def splitWS (l : List Char) : List (List Char) := splitWSAux l []

/-! ### Data model (SCHEMA, src/vman.py lines 50-74) -/

structure Tool where
  id : Nat
  name : List Char
  description : List Char
deriving DecidableEq, Repr

structure TagRow where
  id : Nat
  name : List Char
deriving DecidableEq, Repr

structure ToolTag where
  toolId : Nat
  tagId : Nat
deriving DecidableEq, Repr

structure Cmd where
  id : Nat
  toolId : Nat
  name : List Char
  description : List Char
  snippet : List Char
deriving DecidableEq, Repr

structure Store where
  tools : List Tool
  tags : List TagRow
  toolTags : List ToolTag
  commands : List Cmd
deriving DecidableEq, Repr

/-- SQLite assigns `max rowid + 1` to a fresh row of an
`INTEGER PRIMARY KEY` table. -/
def freshId (ids : List Nat) : Nat := ids.foldr max 0 + 1

def freshToolId (s : Store) : Nat := freshId (s.tools.map Tool.id)
def freshTagId (s : Store) : Nat := freshId (s.tags.map TagRow.id)
def freshCmdId (s : Store) : Nat := freshId (s.commands.map Cmd.id)

/-- Errors of the spec taxonomy raised by the modelled operations. -/
inductive Err where
  | notFound
  | invalidSelection
deriving DecidableEq, Repr

/-! ### Repository operations -/

/-- `get_tool_id` (line 112): `SELECT id FROM tools WHERE name=?`,
first row or none. -/
def get_tool_id (s : Store) (name : List Char) : Option Nat :=
  (s.tools.find? (fun t => decide (t.name = name))).map Tool.id

/-- `ensure_tool` (lines 86-94): if a tool with the name exists, update
its description only when the supplied description is non-empty
(Python `if description:`) and return its id; otherwise insert a new
row.  The UPDATE targets `WHERE id=?`, so it rewrites every row bearing
that id. -/
def ensure_tool (s : Store) (name description : List Char) : Store × Nat :=
  match s.tools.find? (fun t => decide (t.name = name)) with
  | some t =>
    (if description.isEmpty then s
     else { s with tools := s.tools.map (fun u =>
              if u.id = t.id then { u with description := description } else u) },
     t.id)
  | none =>
    let nid := freshToolId s
    ({ s with tools := s.tools ++ [⟨nid, name, description⟩] }, nid)

/-- `ensure_tag` (lines 96-102): find-or-insert a tag row by name. -/
def ensure_tag (s : Store) (tag : List Char) : Store × Nat :=
  match s.tags.find? (fun g => decide (g.name = tag)) with
  | some g => (s, g.id)
  | none =>
    let nid := freshTagId s
    ({ s with tags := s.tags ++ [⟨nid, tag⟩] }, nid)

/-- `INSERT OR IGNORE INTO tool_tags`: the `UNIQUE(tool_id, tag_id)`
constraint turns a duplicate pair into a no-op. -/
def insertToolTag (s : Store) (toolId tagId : Nat) : Store :=
  if s.toolTags.any (fun tt => decide (tt.toolId = toolId ∧ tt.tagId = tagId)) then s
  else { s with toolTags := s.toolTags ++ [⟨toolId, tagId⟩] }

/-- One iteration of the `attach_tags` loop: strip the tag, skip it if
empty, otherwise ensure the tag row and `INSERT OR IGNORE` the
association. -/
def attachStep (toolId : Nat) (acc : Store) (tg : List Char) : Store :=
  let tg' := stripList tg
  if tg'.isEmpty then acc
  else
    let p := ensure_tag acc tg'
    insertToolTag p.1 toolId p.2

/-- `attach_tags` (lines 104-110): fold the step over the tag list.
The same loop appears inline in `_db_upsert_tool` (lines 839-845). -/
def attach_tags (s : Store) (toolId : Nat) (tags : List (List Char)) : Store :=
  tags.foldl (attachStep toolId) s

/-- `_db_upsert_tool` (lines 829-846), the TUI add-tool path: unlike
`ensure_tool` it runs `UPDATE tools SET description=?` with no
non-empty guard, then attaches the tags. -/
def db_upsert_tool (s : Store) (name description : List Char)
    (tags : List (List Char)) : Store × Nat :=
  let p : Store × Nat :=
    match s.tools.find? (fun t => decide (t.name = name)) with
    | some t =>
      ({ s with tools := s.tools.map (fun u =>
           if u.id = t.id then { u with description := description } else u) },
       t.id)
    | none =>
      let nid := freshToolId s
      ({ s with tools := s.tools ++ [⟨nid, name, description⟩] }, nid)
  (attach_tags p.1 p.2 tags, p.2)

/-- The command-upsert statement pair shared verbatim by `add_cmd`
(lines 151-158), `cmd` (lines 442-449), `wizard` (lines 478-485),
`qcmd` (lines 546-553) and `import_toml` (lines 611-620): select the
existing `(tool_id, name)` row; if present, `UPDATE ... WHERE id=?`
with the supplied description and snippet, else INSERT. -/
def upsertCmdRow (s : Store) (toolId : Nat) (name description snippet : List Char) :
    Store :=
  match s.commands.find? (fun c => decide (c.toolId = toolId ∧ c.name = name)) with
  | some c0 =>
    { s with commands := s.commands.map (fun c =>
        if c.id = c0.id then { c with description := description, snippet := snippet }
        else c) }
  | none =>
    { s with commands :=
        s.commands ++ [⟨freshCmdId s, toolId, name, description, snippet⟩] }

/-- `_db_upsert_cmd` (lines 848-859), the TUI path: existence check via
`SELECT 1`, then `UPDATE ... WHERE tool_id=? AND name=?` (keyed by the
pair, not by id) or INSERT. -/
def db_upsert_cmd (s : Store) (toolId : Nat) (name description snippet : List Char) :
    Store :=
  if s.commands.any (fun c => decide (c.toolId = toolId ∧ c.name = name)) then
    { s with commands := s.commands.map (fun c =>
        if c.toolId = toolId ∧ c.name = name then
          { c with description := description, snippet := snippet }
        else c) }
  else
    { s with commands :=
        s.commands ++ [⟨freshCmdId s, toolId, name, description, snippet⟩] }

/-- `add_cmd` (lines 139-160): resolve the tool by name and fail before
touching the store if it is absent.  Python `if not tool_id:` also
treats a literal id 0 as absent (integer truthiness).  On failure the
`with db()` block rolls the transaction back, so the caller observes an
unchanged store. -/
def add_cmd (s : Store) (tool name description snippet : List Char) :
    Except Err Store :=
  match get_tool_id s tool with
  | none => .error .notFound
  | some tid =>
    if tid = 0 then .error .notFound
    else .ok (upsertCmdRow s tid name description snippet)

/-- The observable effect of running `add_cmd`: the resulting store
(unchanged on error, thanks to the rollback) and the error, if any. -/
def add_cmd_run (s : Store) (tool name description snippet : List Char) :
    Store × Option Err :=
  match add_cmd s tool name description snippet with
  | .ok s' => (s', none)
  | .error e => (s, some e)

/-- `rm_tool` (lines 320-326) under `PRAGMA foreign_keys=ON`:
`DELETE FROM tools WHERE name=?` removes every tool row with the name,
and the `ON DELETE CASCADE` clauses of `commands.tool_id` and
`tool_tags.tool_id` (SCHEMA lines 61-73) delete every row referencing a
deleted id. -/
def rm_tool (s : Store) (name : List Char) : Store :=
  let deadIds := (s.tools.filter (fun t => decide (t.name = name))).map Tool.id
  { s with
    tools := s.tools.filter (fun t => !decide (t.name = name)),
    commands := s.commands.filter (fun c => !decide (c.toolId ∈ deadIds)),
    toolTags := s.toolTags.filter (fun tt => !decide (tt.toolId ∈ deadIds)) }

/-- The deletability test of the subselect in `rm_cmd`: the command row
joins to a tool with the given name and carries the given command
name. -/
def cmdDoomed (s : Store) (toolName cmdName : List Char) (c : Cmd) : Bool :=
  decide (c.name = cmdName) &&
    s.tools.any (fun t => decide (t.id = c.toolId ∧ t.name = toolName))

/-- `rm_cmd` (lines 328-344): delete the command rows selected by the
tool-name/command-name join; deleting nothing is not an error. -/
def rm_cmd (s : Store) (toolName cmdName : List Char) : Store :=
  { s with commands := s.commands.filter (fun c => !cmdDoomed s toolName cmdName c) }

/-! ### Query rows and ordering

Both `search` (lines 246-318) and `_build_catalog` (lines 630-673)
start `FROM tools`, optionally `JOIN tool_tags JOIN tags` for a tag
filter, then `LEFT JOIN commands`, and `ORDER BY tools.name,
commands.name`.  A row therefore pairs a tool with an optional command;
the command side is NULL exactly when the tool has no command row.
SQLite sorts NULLs before any string in ascending order, which `⊥` of
`WithBot` reproduces. -/

structure QRow where
  tool : Tool
  cmd : Option Cmd
deriving DecidableEq, Repr

/-- The multiset of tool occurrences after the optional inner joins on
`tool_tags` and `tags`: with a tag filter, one occurrence per
`(tool_tag, tag)` pair that joins to the tool and bears the filtered
tag name (the `tags.name = ?` condition of the WHERE clause lands on
the join result before any command data is consulted, so it is applied
here). -/
def tagJoinTools (s : Store) (tagF : Option (List Char)) : List Tool :=
  match tagF with
  | none => s.tools
  | some tg =>
    s.tools.flatMap (fun t =>
      s.toolTags.flatMap (fun tt =>
        (s.tags.filter (fun g =>
          decide (tt.toolId = t.id ∧ g.id = tt.tagId ∧ g.name = tg))).map
          (fun _ => t)))

/-- `LEFT JOIN commands ON commands.tool_id = tools.id`: each tool row
expands to one row per owned command, or to a single NULL-command row
when it owns none. -/
def leftJoinCmds (s : Store) (t : Tool) : List QRow :=
  match s.commands.filter (fun c => decide (c.toolId = t.id)) with
  | [] => [⟨t, none⟩]
  | cs => cs.map (fun c => ⟨t, some c⟩)

def cmdNameKey : Option Cmd → WithBot (List Char)
  | none => ⊥
  | some c => (c.name : WithBot (List Char))

/-- Sort key of `ORDER BY tools.name, commands.name`. -/
def rowKey (r : QRow) : (List Char) ×ₗ (WithBot (List Char)) :=
  toLex (r.tool.name, cmdNameKey r.cmd)

def rowLE (a b : QRow) : Prop := rowKey a ≤ rowKey b

instance : DecidableRel rowLE :=
  fun a b => inferInstanceAs (Decidable (rowKey a ≤ rowKey b))

instance : IsTotal QRow rowLE := ⟨fun a b => le_total (rowKey a) (rowKey b)⟩

instance : IsTrans QRow rowLE := ⟨fun _ _ _ h1 h2 => le_trans h1 h2⟩

def sortRows (l : List QRow) : List QRow := List.insertionSort rowLE l

/-! ### The plain `search` command (lines 246-318) -/

/-- The free-text disjunction of the WHERE clause: five percent-wrapped LIKE
tests over tool name/description and command name/description/snippet.
On a NULL command side `NULL LIKE ?` is NULL, which the WHERE clause
treats as false, so only the tool columns can match there. -/
def likeCond (q : List Char) (r : QRow) : Bool :=
  likeSub r.tool.name q || likeSub r.tool.description q ||
    (match r.cmd with
     | some c => likeSub c.name q || likeSub c.description q || likeSub c.snippet q
     | none => false)

/-- The `--cmd` condition: `commands.name = ?` under `--exact`, else
a percent-wrapped LIKE on `commands.name`; NULL on the command side fails both. -/
def cmdCond (cf : List Char) (exact : Bool) (r : QRow) : Bool :=
  match r.cmd with
  | none => false
  | some c => if exact then decide (c.name = cf) else likeSub c.name cf

/-- A projected `search` result row, in SELECT order:
tool name, then the command name, snippet and description each
coalesced to the empty string. -/
def projectRow (r : QRow) : List Char × List Char × List Char × List Char :=
  (r.tool.name,
   (r.cmd.map Cmd.name).getD [],
   (r.cmd.map Cmd.snippet).getD [],
   (r.cmd.map Cmd.description).getD [])

/-- The optional `tools.name = ?` condition. -/
def toolNamePred (toolF : Option (List Char)) (r : QRow) : Bool :=
  match toolF with
  | none => true
  | some tn => decide (r.tool.name = tn)

/-- The conjunction of the WHERE conditions `search` assembles: the
optional free text, the optional tool name, and the optional
command-name condition (the tag-name condition lives with its joins in
`tagJoinTools`). -/
def searchPred (q toolF cmdF : Option (List Char)) (exact : Bool) (r : QRow) :
    Bool :=
  (match q with | none => true | some qq => likeCond qq r) &&
  toolNamePred toolF r &&
  (match cmdF with | none => true | some cf => cmdCond cf exact r)

/-- `search` (lines 246-318): joins, WHERE conditions for the optional
free text, tag, tool and command-name filters, ORDER BY, projection. -/
def search (s : Store) (q : Option (List Char)) (tagF toolF : Option (List Char))
    (cmdF : Option (List Char)) (exact : Bool) :
    List (List Char × List Char × List Char × List Char) :=
  (sortRows (((tagJoinTools s tagF).flatMap (leftJoinCmds s)).filter
    (searchPred q toolF cmdF exact))).map projectRow

/-! ### The fuzzy catalog (`_build_catalog`, lines 630-673) -/

structure Entry where
  tool : List Char
  cmd : List Char
  desc : List Char
  snippet : List Char
  summary : List Char
  search : List Char
deriving DecidableEq, Repr

/-- One catalog item (lines 663-672): `summary` falls back from the
description to the snippet truncated at 80 characters with an ellipsis;
`search` is the space join of the non-empty fields
(`" ".join(filter(None, ...))`). -/
def mkEntry (t : Tool) (c : Cmd) : Entry :=
  { tool := t.name
    cmd := c.name
    desc := c.description
    snippet := c.snippet
    summary :=
      if c.description.isEmpty then
        if !c.snippet.isEmpty && decide (c.snippet.length > 80) then
          c.snippet.take 80 ++ ['…']
        else c.snippet
      else c.description
    search := List.intercalate [' ']
      ([t.name, c.name, c.description, c.snippet].filter (fun f => !f.isEmpty)) }

/-- The Python loop body (lines 660-672): `if not cmd_name: continue`
skips both the NULL of a command-less tool and an empty command name. -/
def entryOfRow (r : QRow) : Option Entry :=
  match r.cmd with
  | none => none
  | some c => if c.name.isEmpty then none else some (mkEntry r.tool c)

/-- `_build_catalog` (lines 630-673): the same joins as `search`, a
WHERE clause holding only the optional tag (applied inside
`tagJoinTools`) and tool-name filters, ORDER BY, then the row loop. -/
def build_catalog (s : Store) (toolF tagF : Option (List Char)) : List Entry :=
  (sortRows (((tagJoinTools s tagF).flatMap (leftJoinCmds s)).filter
    (toolNamePred toolF))).filterMap entryOfRow

/-! ### Fuzzy ranking and selection (`fuzzy`, lines 675-742) -/

/-- The no-query branch (lines 701-703): `ranked = [(i, 100) for i in
range(min(top, len(catalog)))]` - the first entries in catalog order,
each given the maximal score 100.  `top` is the `--top` option,
defaulting to 10. -/
def fuzzyNoQueryRanked (top : Nat) (catalog : List Entry) : List (Nat × Nat) :=
  (List.range (min top catalog.length)).map (fun i => (i, 100))

/-- The pick guard (lines 720-722): a 1-based position is rejected with
the invalid-selection error when `pick < 1 or pick > len(ranked)`,
otherwise `ranked[pick - 1]` is taken. -/
def pickRanked (ranked : List (Nat × Nat)) (pick : Int) : Except Err (Nat × Nat) :=
  if h : pick < 1 ∨ (ranked.length : Int) < pick then .error .invalidSelection
  else .ok (ranked.get ⟨(pick - 1).toNat, by omega⟩)

/-- Line 723: `chosen = catalog[ranked[pick - 1][0]]`. -/
def chooseEntry (catalog : List Entry) (ranked : List (Nat × Nat)) (pick : Int) :
    Except Err Entry :=
  match pickRanked ranked pick with
  | .error e => .error e
  | .ok p =>
    match catalog.get? p.1 with
    | some e => .ok e
    | none => .error .invalidSelection

/-! ### The TUI live filter (`_filtered_cmds`, lines 1055-1064) -/

/-- A TUI command row as fetched by `_db_fetch_cmds`:
(name, description, snippet). -/
def cmdBlob (r : List Char × List Char × List Char) : List Char :=
  List.intercalate [' '] [r.1, r.2.1, r.2.2]

/-- `_filtered_cmds` (lines 1055-1064): lower-case and strip the search
box text; an empty result keeps every row, otherwise keep the rows
whose lower-cased space-joined name/description/snippet contains every
whitespace token of the query. -/
def filtered_cmds (searchVal : List Char)
    (rows : List (List Char × List Char × List Char)) :
    List (List Char × List Char × List Char) :=
  let q := lowerStr (stripList searchVal)
  if q.isEmpty then rows
  else rows.filter (fun r =>
    (splitWS q).all (fun part => hasSub (lowerStr (cmdBlob r)) part))

/-! ### Snippet execution outcomes -/

/-- What a caller of one execution path observes about the process:
either the vman process terminates with an exit status, or the program
simply carries on. -/
inductive ExecOutcome where
  | exitWith (code : Nat)
  | continues
deriving DecidableEq, Repr

/-- `run` (lines 1238-1292), `--exec --yes` path: resolve tool and
command (failing with the not-found exits of lines 1250-1258), then
`subprocess.run(..., check=True)`; a non-zero child status raises
`CalledProcessError` and line 1292 re-raises it as
`typer.Exit(e.returncode)`, while a zero status falls through to a
normal exit 0. -/
def run_snippet (s : Store) (tool name : List Char) (child : Nat) :
    Except Err ExecOutcome :=
  match get_tool_id s tool with
  | none => .error .notFound
  | some tid =>
    if tid = 0 then .error .notFound
    else
      match s.commands.find? (fun c => decide (c.toolId = tid ∧ c.name = name)) with
      | none => .error .notFound
      | some _ => .ok (if child = 0 then .exitWith 0 else .exitWith child)

/-- `fuzzy --exec` (lines 736-739): the same try/except shape as `run`,
re-raising the child status as the process exit status. -/
def fuzzyExecOutcome (child : Nat) : ExecOutcome :=
  if child = 0 then .exitWith 0 else .exitWith child

/-- `VmanTUI.action_exec_snippet` (lines 1213-1223): the worker runs the
snippet, and its `except CalledProcessError: pass` swallows a non-zero
child status; in every case the TUI session just continues and no exit
status reaches the caller. -/
def tuiExecOutcome (_child : Nat) : ExecOutcome := .continues

/-! ### Spec-side live filter, and entry ordering -/

/-- Spec-side formulation of the live filter, written from the spec
words alone: keep the commands for which every whitespace-separated
token of the filter text occurs, case-insensitively, as a substring of
the space-joined name/description/snippet; with no tokens (empty or
all-whitespace filter) every command is kept.  To be compared with
`filtered_cmds`, the translation of the source. -/
def specFilteredCmds (filterText : List Char)
    (rows : List (List Char × List Char × List Char)) :
    List (List Char × List Char × List Char) :=
  rows.filter (fun r =>
    (splitWS filterText).all (fun tok =>
      hasSub (lowerStr (cmdBlob r)) (lowerStr tok)))

/-- Catalog entries are keyed by tool name then command name, the order
the ORDER BY clause gives the snapshot. -/
def entKey (e : Entry) : (List Char) ×ₗ (List Char) := toLex (e.tool, e.cmd)

def entLE (a b : Entry) : Prop := entKey a ≤ entKey b

instance : DecidableRel entLE :=
  fun a b => inferInstanceAs (Decidable (entKey a ≤ entKey b))

def defEntry : Entry := ⟨[], [], [], [], [], []⟩

/-! ### Concrete stores for witnesses and counterexamples -/

/-- Two tools, the first with two commands, the second with none. -/
def storeA : Store :=
  { tools := [⟨1, "curl".toList, "HTTP client".toList⟩, ⟨2, "zip".toList, []⟩]
    tags := [⟨1, "net".toList⟩]
    toolTags := [⟨1, 1⟩]
    commands :=
      [⟨1, 1, "get".toList, "Simple GET".toList,
        "curl -s https://example.com".toList⟩,
       ⟨2, 1, "post".toList, [], "curl -X POST".toList⟩] }

/-- A single tool with a non-empty description and no commands. -/
def storeB : Store :=
  { tools := [⟨1, "x".toList, "old".toList⟩]
    tags := []
    toolTags := []
    commands := [] }

/-- The command row of the filter example: name `init`, empty
description, snippet `ironclad init --store x`. -/
def demoRow : List Char × List Char × List Char :=
  ("init".toList, [], "ironclad init --store x".toList)

/-! ## Helper lemmas -/

theorem insertToolTag_tools (s : Store) (a b : Nat) :
    (insertToolTag s a b).tools = s.tools := by
  unfold insertToolTag; split <;> rfl

theorem ensure_tag_tools (s : Store) (g : List Char) :
    (ensure_tag s g).1.tools = s.tools := by
  unfold ensure_tag; split <;> rfl

theorem storeFieldsEq (x y : Store) (h1 : x.tools = y.tools)
    (h2 : x.tags = y.tags) (h3 : x.toolTags = y.toolTags)
    (h4 : x.commands = y.commands) : x = y := by
  cases x; cases y
  cases h1; cases h2; cases h3; cases h4
  rfl

theorem attachStep_tools (i : Nat) (acc : Store) (tg : List Char) :
    (attachStep i acc tg).tools = acc.tools := by
  by_cases h : (stripList tg).isEmpty
  · simp [attachStep, h]
  · simp [attachStep, h, insertToolTag_tools, ensure_tag_tools]

theorem attach_tags_tools (tags : List (List Char)) :
    ∀ (s : Store) (i : Nat), (attach_tags s i tags).tools = s.tools := by
  induction tags with
  | nil => intro s i; rfl
  | cons a l ih =>
    intro s i
    show (List.foldl (attachStep i) (attachStep i s a) l).tools = s.tools
    rw [show List.foldl (attachStep i) (attachStep i s a) l
          = attach_tags (attachStep i s a) i l from rfl,
        ih, attachStep_tools]

/-! ## Claim C2: upserting a command against an unknown tool -/

/-- C2: when no tool with the given name exists, `add_cmd` fails with
NotFound and the observable store is unchanged; in particular the
missing tool is not created. -/
theorem c2_upsert_cmd_unknown_tool (s : Store) (tool name d sn : List Char)
    (h : s.tools.find? (fun t => decide (t.name = tool)) = none) :
    add_cmd_run s tool name d sn = (s, some Err.notFound) := by
  simp [add_cmd_run, add_cmd, get_tool_id, h]

theorem c2_witness :
    add_cmd_run storeA "tar".toList "x".toList [] [] = (storeA, some Err.notFound) :=
  c2_upsert_cmd_unknown_tool storeA "tar".toList "x".toList [] [] (by decide)

/-! ## Claim C4: deleting an absent command is a no-op -/

/-- C4: `rm_cmd` leaves the store unchanged when no command with the
given name exists under a tool of the given name, and also when no tool
of that name exists at all; hence a second identical deletion is a
no-op. -/
theorem c4_rm_cmd_idempotent_noop (s : Store) (toolName cmdName : List Char) :
    ((∀ c ∈ s.commands, c.name = cmdName →
        ∀ t ∈ s.tools, t.id = c.toolId → t.name ≠ toolName) →
      rm_cmd s toolName cmdName = s)
  ∧ ((∀ t ∈ s.tools, t.name ≠ toolName) → rm_cmd s toolName cmdName = s)
  ∧ rm_cmd (rm_cmd s toolName cmdName) toolName cmdName
      = rm_cmd s toolName cmdName := by
  have noop : ∀ _h : ∀ c ∈ s.commands, c.name = cmdName →
      ∀ t ∈ s.tools, t.id = c.toolId → t.name ≠ toolName,
      rm_cmd s toolName cmdName = s := by
    intro h
    have hf : s.commands.filter (fun c => !cmdDoomed s toolName cmdName c)
        = s.commands := by
      rw [List.filter_eq_self]
      intro c hc
      simp only [cmdDoomed, Bool.not_eq_true', Bool.and_eq_false_iff,
        decide_eq_false_iff_not, List.any_eq_false]
      by_cases hname : c.name = cmdName
      · right
        intro t htl
        simp only [Bool.not_eq_true, decide_eq_false_iff_not, not_and]
        intro hid
        exact h c hc hname t htl hid
      · exact Or.inl hname
    show { s with commands := _ } = s
    rw [hf]
  refine ⟨noop, ?_, ?_⟩
  · intro h
    exact noop (fun c _ _ t htl _ => h t htl)
  · refine storeFieldsEq _ _ rfl rfl rfl ?_
    show (rm_cmd s toolName cmdName).commands.filter
        (fun c => !cmdDoomed s toolName cmdName c)
      = (rm_cmd s toolName cmdName).commands
    rw [List.filter_eq_self]
    intro c hc
    have hc' : c ∈ s.commands.filter (fun c => !cmdDoomed s toolName cmdName c) := hc
    exact (List.mem_filter.mp hc').2

theorem c4_witness :
    rm_cmd storeA "tar".toList "get".toList = storeA
  ∧ rm_cmd (rm_cmd storeA "curl".toList "get".toList) "curl".toList "get".toList
      = rm_cmd storeA "curl".toList "get".toList :=
  ⟨(c4_rm_cmd_idempotent_noop storeA "tar".toList "get".toList).2.1 (by decide),
   (c4_rm_cmd_idempotent_noop storeA "curl".toList "get".toList).2.2⟩

/-! ## Claim C3: deleting a tool cascades -/

/-- C3: after `rm_tool`, no tool of that name is found, and no command
row and no tag association referencing the deleted tool id remains. -/
theorem c3_rm_tool_cascades (s : Store) (t : Tool) (name : List Char)
    (ht : t ∈ s.tools) (hn : t.name = name) :
    ((rm_tool s name).tools.find? (fun u => decide (u.name = name)) = none)
  ∧ (∀ c ∈ (rm_tool s name).commands, c.toolId ≠ t.id)
  ∧ (∀ tt ∈ (rm_tool s name).toolTags, tt.toolId ≠ t.id) := by
  have hdead : t.id ∈ (s.tools.filter (fun u => decide (u.name = name))).map Tool.id :=
    List.mem_map.mpr ⟨t, List.mem_filter.mpr ⟨ht, by simp [hn]⟩, rfl⟩
  refine ⟨?_, ?_, ?_⟩
  · rw [List.find?_eq_none]
    intro x hx
    have hx' := (List.mem_filter.mp hx).2
    simpa using hx'
  · intro c hc
    have hc' := (List.mem_filter.mp hc).2
    simp only [Bool.not_eq_true', decide_eq_false_iff_not] at hc'
    intro hEq
    exact hc' (hEq ▸ hdead)
  · intro tt htt
    have htt' := (List.mem_filter.mp htt).2
    simp only [Bool.not_eq_true', decide_eq_false_iff_not] at htt'
    intro hEq
    exact htt' (hEq ▸ hdead)

theorem c3_witness :
    (rm_tool storeA "curl".toList).tools.find?
      (fun u => decide (u.name = "curl".toList)) = none :=
  (c3_rm_tool_cascades storeA ⟨1, "curl".toList, "HTTP client".toList⟩
    "curl".toList (by decide) rfl).1

/-! ## Claim C6: 1-based selection from the ranked list -/

/-- C6: picking a 1-based position that is below 1 or above the result
count is rejected with the invalid-selection error (in the full choose
flow as well), and an in-range position p yields the p-th ranked
entry. -/
theorem c6_pick_bounds (catalog : List Entry) (ranked : List (Nat × Nat)) (p : Int) :
    ((p < 1 ∨ (ranked.length : Int) < p) →
        pickRanked ranked p = .error .invalidSelection
      ∧ chooseEntry catalog ranked p = .error .invalidSelection)
  ∧ (1 ≤ p → p ≤ (ranked.length : Int) →
      ∃ h : (p - 1).toNat < ranked.length,
        pickRanked ranked p = .ok (ranked.get ⟨(p - 1).toNat, h⟩)) := by
  constructor
  · intro h
    have h1 : pickRanked ranked p = .error .invalidSelection := by
      unfold pickRanked; rw [dif_pos h]
    exact ⟨h1, by unfold chooseEntry; rw [h1]⟩
  · intro h1 h2
    have hb : ¬(p < 1 ∨ (ranked.length : Int) < p) := by omega
    refine ⟨by omega, ?_⟩
    unfold pickRanked
    rw [dif_neg hb]

theorem c6_witness :
    pickRanked [(0, 100), (1, 90)] 0 = .error .invalidSelection
  ∧ pickRanked [(0, 100), (1, 90)] 3 = .error .invalidSelection
  ∧ pickRanked [(0, 100), (1, 90)] 2 = .ok (1, 90) := by
  refine ⟨((c6_pick_bounds [] [(0, 100), (1, 90)] 0).1 (by decide)).1,
          ((c6_pick_bounds [] [(0, 100), (1, 90)] 3).1 (by decide)).1, ?_⟩
  obtain ⟨h, he⟩ := (c6_pick_bounds [] [(0, 100), (1, 90)] 2).2 (by decide) (by decide)
  exact he.trans rfl

/-! ## Claim C8 (corrected): exit-status propagation of snippet runs -/

/-- C8, counterexample to the claim as stated: the interactive
execute action of the session does not terminate with the non-zero child
status - its worker swallows the error and the session continues. -/
theorem c8_cex :
    tuiExecOutcome 7 = ExecOutcome.continues
  ∧ ExecOutcome.continues ≠ ExecOutcome.exitWith 7
  ∧ (7 : Nat) ≠ 0 := by decide

/-- C8 as amended: the `run` command and the `fuzzy --exec` path
propagate a non-zero child exit status as the process exit status,
while the TUI execute action swallows it and the session continues. -/
theorem c8_exit_status_paths (s : Store) (tool name : List Char) (tid : Nat)
    (c0 : Cmd) (child : Nat)
    (hid : get_tool_id s tool = some tid) (htid : tid ≠ 0)
    (hcmd : s.commands.find? (fun c => decide (c.toolId = tid ∧ c.name = name))
      = some c0)
    (hchild : child ≠ 0) :
    run_snippet s tool name child = .ok (.exitWith child)
  ∧ fuzzyExecOutcome child = .exitWith child
  ∧ tuiExecOutcome child = .continues := by
  refine ⟨?_, ?_, rfl⟩
  · unfold run_snippet
    rw [hid]
    dsimp only
    rw [if_neg htid, hcmd]
    dsimp only
    rw [if_neg hchild]
  · unfold fuzzyExecOutcome
    rw [if_neg hchild]

theorem c8_witness :
    run_snippet storeA "curl".toList "get".toList 7 = .ok (.exitWith 7)
  ∧ fuzzyExecOutcome 7 = .exitWith 7 := by
  have h := c8_exit_status_paths storeA "curl".toList "get".toList 1
    ⟨1, 1, "get".toList, "Simple GET".toList, "curl -s https://example.com".toList⟩ 7
    (by decide) (by decide) (by decide) (by decide)
  exact ⟨h.1, h.2.1⟩

/-! ## Claim C9: command upsert always overwrites description and snippet -/

/-- C9: when the (tool, name) key already exists, the shared upsert of
`add_cmd`/`cmd`/`qcmd`/`wizard`/`import_toml` and the TUI upsert
`_db_upsert_cmd` both keep the row count and overwrite the stored
description and snippet with the supplied values - for every supplied
value, the empty string included; there is no keep-old-when-empty rule
for commands. -/
theorem c9_cmd_upsert_overwrites (s : Store) (tid : Nat) (name d sn : List Char) :
    (∀ c0, s.commands.find? (fun c => decide (c.toolId = tid ∧ c.name = name))
        = some c0 →
      (upsertCmdRow s tid name d sn).commands.length = s.commands.length
      ∧ { c0 with description := d, snippet := sn }
          ∈ (upsertCmdRow s tid name d sn).commands)
  ∧ (s.commands.any (fun c => decide (c.toolId = tid ∧ c.name = name)) = true →
      (db_upsert_cmd s tid name d sn).commands.length = s.commands.length
      ∧ ∀ c ∈ (db_upsert_cmd s tid name d sn).commands,
          c.toolId = tid → c.name = name →
            c.description = d ∧ c.snippet = sn) := by
  constructor
  · intro c0 h
    have hmem := List.mem_of_find?_eq_some h
    constructor
    · unfold upsertCmdRow
      rw [h]
      exact List.length_map s.commands _
    · unfold upsertCmdRow
      rw [h]
      exact List.mem_map.mpr ⟨c0, hmem, by simp⟩
  · intro h
    constructor
    · unfold db_upsert_cmd
      rw [if_pos h]
      exact List.length_map s.commands _
    · intro c hc hct hcn
      unfold db_upsert_cmd at hc
      rw [if_pos h] at hc
      obtain ⟨a, _, haeq⟩ := List.mem_map.mp hc
      by_cases hm : a.toolId = tid ∧ a.name = name
      · rw [if_pos hm] at haeq
        cases haeq
        exact ⟨rfl, rfl⟩
      · rw [if_neg hm] at haeq
        cases haeq
        exact absurd ⟨hct, hcn⟩ hm

theorem c9_witness :
    ({ id := 1, toolId := 1, name := "get".toList, description := [],
       snippet := [] } : Cmd) ∈ (upsertCmdRow storeA 1 "get".toList [] []).commands
  ∧ (db_upsert_cmd storeA 1 "get".toList [] []).commands.length = 2 := by
  have h := c9_cmd_upsert_overwrites storeA 1 "get".toList [] []
  refine ⟨?_, ?_⟩
  · exact (h.1 ⟨1, 1, "get".toList, "Simple GET".toList,
      "curl -s https://example.com".toList⟩ (by decide)).2
  · exact ((h.2 (by decide)).1).trans rfl

/-! ## Claim C1 (corrected): tool upsert and the description rule -/

/-- C1, counterexample to the claim as stated: through the interactive
add-tool action of the session (`_db_upsert_tool`), upserting the existing
tool `x` with an empty description does not leave the stored
description `old` unchanged - it overwrites it with the empty
string. -/
theorem c1_cex :
    (db_upsert_tool storeB "x".toList [] []).1.tools.find?
        (fun u => decide (u.name = "x".toList)) = some ⟨1, "x".toList, []⟩
  ∧ storeB.tools.find? (fun u => decide (u.name = "x".toList))
      = some ⟨1, "x".toList, "old".toList⟩
  ∧ "old".toList ≠ ([] : List Char) := by decide

/-- C1 as amended: upserting a tool whose name exists never inserts a
second row on any entry point.  Through `ensure_tool` (the `add-tool`,
`use`, `wizard`, `qtool` and `import-toml` entry points) the stored
description is updated only when the supplied description is non-empty
and is kept - the store is untouched - when it is empty; through the
`_db_upsert_tool` of the interactive session the supplied description
overwrites the stored one unconditionally, the empty string
included. -/
theorem c1_tool_upsert (s : Store) (t : Tool) (name d : List Char)
    (tags : List (List Char))
    (hfind : s.tools.find? (fun u => decide (u.name = name)) = some t) :
    ((ensure_tool s name d).1.tools.length = s.tools.length)
  ∧ (d = [] → (ensure_tool s name d).1 = s)
  ∧ (d ≠ [] →
      (ensure_tool s name d).1.tools.find? (fun u => decide (u.name = name))
        = some { t with description := d })
  ∧ ((db_upsert_tool s name d tags).1.tools.length = s.tools.length)
  ∧ ((db_upsert_tool s name d tags).1.tools.find?
        (fun u => decide (u.name = name)) = some { t with description := d }) := by
  have hpf : ((fun u : Tool => decide (u.name = name)) ∘
      (fun u : Tool => if u.id = t.id then { u with description := d } else u))
      = (fun u : Tool => decide (u.name = name)) := by
    funext u
    by_cases h : u.id = t.id <;> simp [h]
  have hfind' : (s.tools.map
      (fun u => if u.id = t.id then { u with description := d } else u)).find?
      (fun u => decide (u.name = name))
      = some { t with description := d } := by
    rw [List.find?_map, hpf, hfind]
    simp
  refine ⟨?_, ?_, ?_, ?_, ?_⟩
  · simp only [ensure_tool, hfind]
    split <;> simp
  · intro hd
    subst hd
    simp [ensure_tool, hfind]
  · intro hd
    have hd' : d.isEmpty = false := by
      cases d with
      | nil => exact absurd rfl hd
      | cons a l => rfl
    simp only [ensure_tool, hfind, hd', Bool.false_eq_true, if_false]
    exact hfind'
  · simp only [db_upsert_tool, hfind]
    rw [attach_tags_tools]
    simp
  · simp only [db_upsert_tool, hfind]
    rw [attach_tags_tools]
    exact hfind'

theorem c1_witness :
    (ensure_tool storeB "x".toList "new".toList).1.tools.find?
        (fun u => decide (u.name = "x".toList)) = some ⟨1, "x".toList, "new".toList⟩
  ∧ (ensure_tool storeB "x".toList []).1 = storeB
  ∧ (db_upsert_tool storeB "x".toList "new".toList []).1.tools.length = 1 := by
  have h1 := c1_tool_upsert storeB ⟨1, "x".toList, "old".toList⟩ "x".toList
    "new".toList [] (by decide)
  have h2 := c1_tool_upsert storeB ⟨1, "x".toList, "old".toList⟩ "x".toList
    [] [] (by decide)
  exact ⟨h1.2.2.1 (by decide), h2.2.1 rfl, (h1.2.2.2.1).trans rfl⟩

/-! ## Claim C7: the TUI live filter

The workhorse lemmas show that lower-casing commutes with whitespace
tokenisation (ASCII case folding never touches a whitespace character)
and that stripping the query does not change its token list, so the
strip-then-lower-then-split pipeline of the source computes exactly
the token-of-the-filter-text matching the spec describes. -/

theorem lowerStr_isEmpty (l : List Char) : (lowerStr l).isEmpty = l.isEmpty := by
  cases l <;> rfl

theorem ws_toNat_lt (c : Char) (h : c.isWhitespace = true) : c.toNat < 65 := by
  simp only [Char.isWhitespace, Bool.or_eq_true, decide_eq_true_eq] at h
  rcases h with ((h | h) | h) | h <;> subst h <;> decide

theorem isWS_toLower (c : Char) : isWS c.toLower = isWS c := by
  show (Char.toLower c).isWhitespace = c.isWhitespace
  rw [show Char.toLower c
      = if c.toNat ≥ 65 ∧ c.toNat ≤ 90 then Char.ofNat (c.toNat + 32) else c
    from rfl]
  by_cases h : c.toNat ≥ 65 ∧ c.toNat ≤ 90
  · rw [if_pos h]
    obtain ⟨h1, h2⟩ := h
    have hc : c.isWhitespace = false := by
      cases hwc : c.isWhitespace with
      | false => rfl
      | true => exact absurd (ws_toNat_lt c hwc) (by omega)
    rw [hc]
    generalize hgen : c.toNat = n at h1 h2 ⊢
    interval_cases n <;> decide
  · rw [if_neg h]

theorem splitWSAux_lower (l : List Char) :
    ∀ acc, splitWSAux (lowerStr l) (lowerStr acc)
      = (splitWSAux l acc).map lowerStr := by
  induction l with
  | nil =>
    intro acc
    show (if (lowerStr acc).isEmpty then [] else [(lowerStr acc).reverse])
      = List.map lowerStr (if acc.isEmpty then [] else [acc.reverse])
    rw [lowerStr_isEmpty]
    by_cases h : acc.isEmpty
    · simp [h]
    · simp [h, lowerStr, List.map_reverse]
  | cons c cs ih =>
    intro acc
    show splitWSAux (c.toLower :: lowerStr cs) (lowerStr acc)
      = List.map lowerStr (splitWSAux (c :: cs) acc)
    unfold splitWSAux
    rw [isWS_toLower, lowerStr_isEmpty]
    by_cases hw : isWS c
    · rw [if_pos hw, if_pos hw]
      by_cases ha : acc.isEmpty
      · rw [if_pos ha, if_pos ha]
        have := ih []
        simpa [lowerStr] using this
      · rw [if_neg ha, if_neg ha]
        have hnil := ih []
        simp only [lowerStr, List.map_nil] at hnil
        simp [lowerStr, List.map_reverse, hnil]
    · rw [if_neg hw, if_neg hw]
      have := ih (c :: acc)
      simpa [lowerStr] using this

theorem splitWS_lower (l : List Char) :
    splitWS (lowerStr l) = (splitWS l).map lowerStr := by
  have := splitWSAux_lower l []
  simpa [splitWS, lowerStr] using this

theorem splitWSAux_allWS (r : List Char) (hall : ∀ c ∈ r, isWS c = true) :
    ∀ acc, splitWSAux r acc = if acc.isEmpty then [] else [acc.reverse] := by
  induction r with
  | nil => intro acc; rfl
  | cons c r' ih =>
    intro acc
    have hc : isWS c = true := hall c (List.mem_cons_self c r')
    have ih' := ih (fun x hx => hall x (List.mem_cons_of_mem c hx))
    show (if isWS c then
        if acc.isEmpty then splitWSAux r' [] else acc.reverse :: splitWSAux r' []
      else splitWSAux r' (c :: acc)) = _
    rw [if_pos hc, ih']
    by_cases ha : acc.isEmpty
    · rw [if_pos ha, if_pos ha]
      rfl
    · rw [if_neg ha, if_neg ha]
      rfl

theorem splitWSAux_append_ws (r : List Char) (hall : ∀ c ∈ r, isWS c = true) :
    ∀ (l : List Char) (acc : List Char),
      splitWSAux (l ++ r) acc = splitWSAux l acc := by
  intro l
  induction l with
  | nil =>
    intro acc
    rw [List.nil_append, splitWSAux_allWS r hall acc]
    rfl
  | cons c cs ih =>
    intro acc
    show (if isWS c then
        if acc.isEmpty then splitWSAux (cs ++ r) []
        else acc.reverse :: splitWSAux (cs ++ r) []
      else splitWSAux (cs ++ r) (c :: acc)) = _
    rw [ih [], ih (c :: acc)]
    rfl

theorem splitWSAux_dropWhile (l : List Char) :
    splitWSAux (l.dropWhile isWS) [] = splitWSAux l [] := by
  induction l with
  | nil => rfl
  | cons c cs ih =>
    rw [List.dropWhile_cons]
    by_cases hw : isWS c
    · rw [if_pos hw, ih]
      show _ = (if isWS c then splitWSAux cs [] else splitWSAux cs [c])
      rw [if_pos hw]
    · rw [if_neg hw]

theorem splitWS_strip (l : List Char) : splitWS (stripList l) = splitWS l := by
  unfold splitWS stripList
  set d := l.dropWhile isWS with hd
  have hsplitrev : d.reverse
      = d.reverse.takeWhile isWS ++ d.reverse.dropWhile isWS :=
    (List.takeWhile_append_dropWhile isWS d.reverse).symm
  have hdval : d = (d.reverse.dropWhile isWS).reverse
      ++ (d.reverse.takeWhile isWS).reverse := by
    conv_lhs => rw [← List.reverse_reverse d, hsplitrev]
    rw [List.reverse_append]
  have hall : ∀ c ∈ (d.reverse.takeWhile isWS).reverse, isWS c = true := by
    intro c hc
    exact List.mem_takeWhile_imp (List.mem_reverse.mp hc)
  calc splitWSAux ((l.dropWhile isWS).reverse.dropWhile isWS).reverse []
      = splitWSAux d [] := by
        conv_rhs => rw [hdval]
        rw [splitWSAux_append_ws _ hall]
    _ = splitWSAux l [] := splitWSAux_dropWhile l

theorem splitWS_of_strip_nil (l : List Char) (h : stripList l = []) :
    splitWS l = [] := by
  rw [← splitWS_strip, h]
  rfl

/-- C7: the interactive live filter agrees with the spec-side
token-AND matcher on every filter text and command list - an empty or
all-whitespace filter keeps every command, and otherwise a command is
kept exactly when each whitespace token of the filter occurs
case-insensitively in the space-joined name/description/snippet; in
particular, the token set init matches the demo row while the token
set init+missing does not. -/
theorem c7_live_filter :
    (∀ (f : List Char) (rows : List (List Char × List Char × List Char)),
      filtered_cmds f rows = specFilteredCmds f rows)
  ∧ filtered_cmds "init".toList [demoRow] = [demoRow]
  ∧ filtered_cmds "init missing".toList [demoRow] = [] := by
  refine ⟨?_, by decide, by decide⟩
  intro f rows
  unfold filtered_cmds specFilteredCmds
  by_cases h : (lowerStr (stripList f)).isEmpty
  · rw [if_pos h]
    have hstrip : stripList f = [] := by
      rw [lowerStr_isEmpty, List.isEmpty_iff] at h
      exact h
    rw [splitWS_of_strip_nil f hstrip]
    simp
  · rw [if_neg h]
    congr 1
    funext r
    rw [splitWS_lower, splitWS_strip, List.all_map]
    rfl

/-! ## Claim C5: the no-query fuzzy browse mode -/

theorem range_map_getD {α : Type} (l : List α) (d : α) :
    ∀ m, m ≤ l.length →
      (List.range m).map (fun i => l.getD i d) = l.take m := by
  intro m
  induction m with
  | zero => intro _; rfl
  | succ k ih =>
    intro h
    rw [List.range_succ, List.map_append, ih (Nat.le_of_succ_le h), List.take_succ]
    congr 1
    have hk : k < l.length := h
    rw [show List.map (fun i => l.getD i d) [k] = [l.getD k d] from rfl,
      List.getD_eq_getElem?_getD, List.getElem?_eq_getElem hk]
    rfl

/-- Sorting the query rows and then projecting them to catalog entries
leaves the snapshot sorted by tool name then command name. -/
theorem build_catalog_sorted (s : Store) (toolF tagF : Option (List Char)) :
    (build_catalog s toolF tagF).Sorted entLE := by
  unfold build_catalog
  refine List.Pairwise.filterMap entryOfRow ?_ (List.sorted_insertionSort rowLE _)
  · intro a a' hr b hb b' hb'
    cases hcmd : a.cmd with
    | none => simp [entryOfRow, hcmd] at hb
    | some c =>
      cases hcmd' : a'.cmd with
      | none => simp [entryOfRow, hcmd'] at hb'
      | some c' =>
        by_cases hni : c.name.isEmpty
        · simp [entryOfRow, hcmd, hni] at hb
        · by_cases hni' : c'.name.isEmpty
          · simp [entryOfRow, hcmd', hni'] at hb'
          · simp only [entryOfRow, hcmd, hcmd', hni, hni', Bool.false_eq_true,
              if_false, Option.mem_def, Option.some_inj] at hb hb'
            subst hb
            subst hb'
            unfold rowLE rowKey at hr
            rw [hcmd, hcmd'] at hr
            simp only [cmdNameKey] at hr
            show toLex (a.tool.name, c.name) ≤ toLex (a'.tool.name, c'.name)
            rw [Prod.Lex.le_iff] at hr ⊢
            rcases hr with hlt | ⟨heq, hle⟩
            · exact Or.inl hlt
            · exact Or.inr ⟨heq, WithBot.coe_le_coe.mp hle⟩

/-- C5: on a non-empty snapshot the no-query fuzzy mode returns exactly
the first min(N, snapshot length) catalog entries in snapshot order,
each with the maximal score 100, and the snapshot order is indeed
ascending by tool name then command name.  N is the `--top` option,
default 10. -/
theorem c5_fuzzy_browse (s : Store) (toolF tagF : Option (List Char)) (n : Nat)
    (hne : build_catalog s toolF tagF ≠ []) :
    (fuzzyNoQueryRanked n (build_catalog s toolF tagF)).map
        (fun p => ((build_catalog s toolF tagF).getD p.1 defEntry, p.2))
      = ((build_catalog s toolF tagF).take
          (min n (build_catalog s toolF tagF).length)).map (fun e => (e, 100))
  ∧ (build_catalog s toolF tagF).Sorted entLE := by
  refine ⟨?_, build_catalog_sorted s toolF tagF⟩
  unfold fuzzyNoQueryRanked
  rw [List.map_map,
    ← range_map_getD (build_catalog s toolF tagF) defEntry
      (min n (build_catalog s toolF tagF).length)
      (Nat.min_le_right _ _),
    List.map_map]
  rfl

theorem c5_witness :
    (fuzzyNoQueryRanked 10 (build_catalog storeA none none)).map
        (fun p => ((build_catalog storeA none none).getD p.1 defEntry, p.2))
      = ((build_catalog storeA none none).take
          (min 10 (build_catalog storeA none none).length)).map (fun e => (e, 100)) :=
  (c5_fuzzy_browse storeA none none 10 (by decide)).1

/-! ## Claim C10: command-less tools in plain search vs the fuzzy snapshot -/

theorem mem_tagJoinTools_intro (s : Store) (t : Tool) (tagF : Option (List Char))
    (ht : t ∈ s.tools)
    (htg : ∀ tg, tagF = some tg → ∃ tt ∈ s.toolTags, tt.toolId = t.id
      ∧ ∃ g ∈ s.tags, g.id = tt.tagId ∧ g.name = tg) :
    t ∈ tagJoinTools s tagF := by
  cases tagF with
  | none => exact ht
  | some tg =>
    obtain ⟨tt, htt, htt1, g, hg, hg1, hg2⟩ := htg tg rfl
    refine List.mem_flatMap.mpr ⟨t, ht, ?_⟩
    refine List.mem_flatMap.mpr ⟨tt, htt, ?_⟩
    exact List.mem_map.mpr
      ⟨g, List.mem_filter.mpr ⟨hg, decide_eq_true ⟨htt1, hg1, hg2⟩⟩, rfl⟩

theorem mem_tagJoinTools_elim (s : Store) (tagF : Option (List Char)) (t' : Tool)
    (h : t' ∈ tagJoinTools s tagF) : t' ∈ s.tools := by
  cases tagF with
  | none => exact h
  | some tg =>
    obtain ⟨t'', ht'', hin⟩ := List.mem_flatMap.mp h
    obtain ⟨tt, _, hin2⟩ := List.mem_flatMap.mp hin
    obtain ⟨g, _, heq⟩ := List.mem_map.mp hin2
    exact heq ▸ ht''

theorem leftJoinCmds_of_no_cmds (s : Store) (t : Tool)
    (h : s.commands.filter (fun c => decide (c.toolId = t.id)) = []) :
    leftJoinCmds s t = [⟨t, none⟩] := by
  unfold leftJoinCmds
  rw [h]

theorem mem_leftJoinCmds_elim (s : Store) (t' : Tool) (r : QRow)
    (h : r ∈ leftJoinCmds s t') :
    r.tool = t'
    ∧ (r.cmd = none
       ∨ ∃ c, c ∈ s.commands ∧ c.toolId = t'.id ∧ r.cmd = some c) := by
  unfold leftJoinCmds at h
  split at h
  · rw [List.mem_singleton] at h
    subst h
    exact ⟨rfl, Or.inl rfl⟩
  · obtain ⟨c0, hc0, hre⟩ := List.mem_map.mp h
    have hc0' := List.mem_filter.mp hc0
    subst hre
    exact ⟨rfl, Or.inr ⟨c0, hc0'.1, of_decide_eq_true hc0'.2, rfl⟩⟩

/-- C10: a tool with no commands that passes the free-text, tag and
tool filters surfaces in plain `search` output (with no command-name
filter) as a row whose command-name, snippet and description fields are
the empty string, while the fuzzy-search snapshot never contains an
entry for such a tool, under any snapshot filters. -/
theorem c10_commandless_tools (s : Store) (t : Tool)
    (q tagF toolF : Option (List Char))
    (ht : t ∈ s.tools)
    (hnc : ∀ c ∈ s.commands, c.toolId ≠ t.id)
    (hu : ∀ t' ∈ s.tools, t'.name = t.name → t' = t)
    (hq : ∀ qq, q = some qq → (likeSub t.name qq || likeSub t.description qq) = true)
    (htl : ∀ tn, toolF = some tn → tn = t.name)
    (htg : ∀ tg, tagF = some tg → ∃ tt ∈ s.toolTags, tt.toolId = t.id
      ∧ ∃ g ∈ s.tags, g.id = tt.tagId ∧ g.name = tg) :
    ((t.name, ([] : List Char), ([] : List Char), ([] : List Char))
        ∈ search s q tagF toolF none false)
  ∧ (∀ (toolF2 tagF2 : Option (List Char)) (e : Entry),
      e ∈ build_catalog s toolF2 tagF2 → e.tool ≠ t.name) := by
  constructor
  · have hfil : s.commands.filter (fun c => decide (c.toolId = t.id)) = [] := by
      rw [List.filter_eq_nil_iff]
      intro c hc
      simpa using hnc c hc
    have hrow : (⟨t, none⟩ : QRow)
        ∈ (tagJoinTools s tagF).flatMap (leftJoinCmds s) := by
      refine List.mem_flatMap.mpr ⟨t, mem_tagJoinTools_intro s t tagF ht htg, ?_⟩
      rw [leftJoinCmds_of_no_cmds s t hfil]
      exact List.mem_singleton.mpr rfl
    have hpred : searchPred q toolF none false ⟨t, none⟩ = true := by
      unfold searchPred toolNamePred
      cases q with
      | none =>
        cases toolF with
        | none => rfl
        | some tn =>
          have h2 := htl tn rfl
          subst h2
          simp
      | some qq =>
        have hl := hq qq rfl
        cases toolF with
        | none => simp [likeCond, hl]
        | some tn =>
          have h2 := htl tn rfl
          subst h2
          simp [likeCond, hl]
    unfold search
    refine List.mem_map.mpr ⟨⟨t, none⟩, ?_, rfl⟩
    refine ((List.perm_insertionSort rowLE _).mem_iff).mpr ?_
    exact List.mem_filter.mpr ⟨hrow, hpred⟩
  · intro toolF2 tagF2 e he
    have he' : e ∈ (sortRows (((tagJoinTools s tagF2).flatMap
        (leftJoinCmds s)).filter (toolNamePred toolF2))).filterMap entryOfRow := he
    obtain ⟨r, hr, hfr⟩ := List.mem_filterMap.mp he'
    have hr2 := ((List.perm_insertionSort rowLE _).mem_iff).mp hr
    have hr3 := (List.mem_filter.mp hr2).1
    obtain ⟨t', ht', hr4⟩ := List.mem_flatMap.mp hr3
    obtain ⟨hrt, hcases⟩ := mem_leftJoinCmds_elim s t' r hr4
    cases hcmd : r.cmd with
    | none => simp [entryOfRow, hcmd] at hfr
    | some c =>
      have hme : ¬c.name.isEmpty = true ∧ mkEntry r.tool c = e := by
        simp only [entryOfRow, hcmd] at hfr
        by_cases hni : c.name.isEmpty
        · simp [hni] at hfr
        · rw [if_neg hni] at hfr
          exact ⟨hni, Option.some_inj.mp hfr⟩
      obtain ⟨_, hee⟩ := hme
      intro heq
      have ht'name : t'.name = t.name := by
        rw [← hrt]
        rw [← hee] at heq
        exact heq
      have ht'mem : t' ∈ s.tools := mem_tagJoinTools_elim s tagF2 t' ht'
      have ht'eq : t' = t := hu t' ht'mem ht'name
      rcases hcases with hnone | ⟨c2, hc2mem, hc2id, hc2eq⟩
      · rw [hcmd] at hnone
        cases hnone
      · exact hnc c2 hc2mem (ht'eq ▸ hc2id)

theorem c10_witness :
    ("zip".toList, ([] : List Char), ([] : List Char), ([] : List Char))
      ∈ search storeA none none none none false :=
  (c10_commandless_tools storeA ⟨2, "zip".toList, []⟩ none none none
    (by decide) (by decide) (by decide)
    (fun _ h => nomatch h) (fun _ h => nomatch h) (fun _ h => nomatch h)).1

end Vman
